import Mathlib

/-!
Shallow embedding of the time-sliced garbage-collected keyed store of
src/util/collections/src/garbage/ (the GcMap family) together with the
Duration wrapper of src/util/collections/src/garbage/mod.rs.

Machine integers (u64) are modelled as Nat; the one place where unsigned
overflow matters, the cutoff subtraction inside GcMap::gc, is modelled with
an explicit wrap modulo 2^64, which is the release-mode behaviour of Rust
unsigned subtraction (debug builds abort there instead).

The BTreeMap of slots is modelled as an association list ordered by slot id
(ascending), which is the iteration order BTreeMap provides; the HashMap
payload of each slot is modelled as an association list with unique keys
maintained by the insert operation.
-/

namespace Movement

/-- Width of the u64 machine-integer domain. -/
def U64 : ℕ := 2 ^ 64

/-- Release-mode u64 subtraction: wraps modulo 2^64.  Faithful for
arguments below 2^64, which all slot ids and slot counts are. -/
def wrapSub (a b : ℕ) : ℕ := (U64 + a - b) % U64

/-- Models struct Duration(pub NonZeroU64) of garbage/mod.rs: a strictly
positive number of milliseconds. -/
structure Duration where
  val : ℕ
  pos : 0 < val

/-- Models Duration::try_new: fails (none) exactly on zero input. -/
def Duration.try_new (value : ℕ) : Option Duration :=
  if h : 0 < value then some ⟨value, h⟩ else none

/-- Models Duration::get. -/
def Duration.get (d : Duration) : ℕ := d.val

section Buckets

variable {K V : Type} [DecidableEq K]

/-- Models HashMap::get on a slot payload: first pair with the key. -/
def bucketGet (b : List (K × V)) (key : K) : Option V :=
  match b with
  | [] => none
  | p :: rest => if p.1 = key then some p.2 else bucketGet rest key

/-- Models HashMap::contains_key / remove(..).is_some() on a slot payload. -/
def bucketContains (b : List (K × V)) (key : K) : Bool :=
  b.any (fun p => decide (p.1 = key))

/-- Models HashMap::remove on a slot payload: drop every pair with the key
(a HashMap holds at most one). -/
def bucketRemove (b : List (K × V)) (key : K) : List (K × V) :=
  b.filter (fun p => decide (p.1 ≠ key))

/-- Models HashMap::insert on a slot payload: replace any previous binding
of the key with the new value. -/
def bucketInsert (b : List (K × V)) (key : K) (value : V) : List (K × V) :=
  bucketRemove b key ++ [(key, value)]

/-- Models BTreeMap iteration .values().rev() combined with the break on the
first slot whose payload holds the key, as in GcMap::remove_value: the input
list is already in the iteration order. -/
def removeFromFirst (l : List (ℕ × List (K × V))) (key : K) :
    List (ℕ × List (K × V)) :=
  match l with
  | [] => []
  | (s, b) :: rest =>
    if bucketContains b key then (s, bucketRemove b key) :: rest
    else (s, b) :: removeFromFirst rest key

/-- Models BTreeMap::entry(slot).or_insert_with(HashMap::new).insert(key, v)
on the ascending association list: ordered insert into the slot bucket,
creating it when absent. -/
def entryInsert (l : List (ℕ × List (K × V))) (slot : ℕ) (key : K) (value : V) :
    List (ℕ × List (K × V)) :=
  match l with
  | [] => [(slot, bucketInsert [] key value)]
  | (s, b) :: rest =>
    if slot < s then (slot, bucketInsert [] key value) :: (s, b) :: rest
    else if slot = s then (s, bucketInsert b key value) :: rest
    else (s, b) :: entryInsert rest slot key value

/-- Models BTreeMap::remove(&slot). -/
def btreeRemove (l : List (ℕ × List (K × V))) (slot : ℕ) :
    List (ℕ × List (K × V)) :=
  l.filter (fun p => decide (p.1 ≠ slot))

/-- Models BTreeMap::get(&slot): lookup of a slot payload by slot id. -/
def btLookup (l : List (ℕ × List (K × V))) (slot : ℕ) : Option (List (K × V)) :=
  match l with
  | [] => none
  | (s, b) :: rest => if s = slot then some b else btLookup rest slot

end Buckets

/-- Models struct GcMap<K, V> of garbage/map.rs. -/
structure GcMap (K V : Type) where
  value_ttl_ms : Duration
  gc_slot_duration_ms : Duration
  value_lifetimes : List (ℕ × List (K × V))

namespace GcMap

variable {K V : Type} [DecidableEq K]

/-- Models GcMap::new. -/
def new (value_ttl_ms gc_slot_duration_ms : Duration) : GcMap K V :=
  { value_ttl_ms := value_ttl_ms, gc_slot_duration_ms := gc_slot_duration_ms
    value_lifetimes := [] }

/-- Models GcMap::get_value: scan slots in reverse (newest-first) order and
return the first binding of the key. -/
def get_value (m : GcMap K V) (key : K) : Option V :=
  m.value_lifetimes.reverse.findSome? (fun p => bucketGet p.2 key)

/-- Models GcMap::remove_value: scan slots newest-first, remove the key from
the first slot holding it, and stop. -/
def remove_value (m : GcMap K V) (key : K) : GcMap K V :=
  { m with value_lifetimes := (removeFromFirst m.value_lifetimes.reverse key).reverse }

/-- Models GcMap::set_value: remove any previous binding, then insert into
the slot current_time_ms / gc_slot_duration_ms. -/
def set_value (m : GcMap K V) (key : K) (value : V) (current_time_ms : ℕ) :
    GcMap K V :=
  let m' := m.remove_value key
  let slot := current_time_ms / m'.gc_slot_duration_ms.get
  { m' with value_lifetimes := entryInsert m'.value_lifetimes slot key value }

/-- Models GcMap::gc: compute the cutoff with u64 (wrapping) subtraction,
collect the slots below it by take_while over the ascending keys, then
remove each collected slot. -/
def gc (m : GcMap K V) (current_time_ms : ℕ) : GcMap K V :=
  let gc_slot := current_time_ms / m.gc_slot_duration_ms.get
  let slot_cutoff := wrapSub gc_slot (m.value_ttl_ms.get / m.gc_slot_duration_ms.get)
  let slots_to_remove :=
    (m.value_lifetimes.map Prod.fst).takeWhile (fun s => decide (s < slot_cutoff))
  { m with value_lifetimes :=
      slots_to_remove.foldl (fun l s => btreeRemove l s) m.value_lifetimes }

end GcMap

section Predicates

variable {K V : Type} [DecidableEq K]

/-- Number of slots whose payload holds the key. -/
def keyCount (l : List (ℕ × List (K × V))) (key : K) : ℕ :=
  (l.filter (fun p => bucketContains p.2 key)).length

/-- No slot of the list holds the key. -/
def NoKey (l : List (ℕ × List (K × V))) (key : K) : Prop :=
  ∀ p ∈ l, bucketContains p.2 key = false

/-- The key uniqueness invariant of the store: every key occurs in at most
one slot bucket. -/
def UniqueKeys (m : GcMap K V) : Prop :=
  ∀ key : K, keyCount m.value_lifetimes key ≤ 1

/-- The BTreeMap representation invariant: slot ids strictly ascending. -/
def SortedSlots (m : GcMap K V) : Prop :=
  (m.value_lifetimes.map Prod.fst).Pairwise (· < ·)

/-- States reachable from GcMap::new by the public mutating operations. -/
inductive Reachable : GcMap K V → Prop where
  | new (ttl width : Duration) : Reachable (GcMap.new ttl width)
  | set_value {m : GcMap K V} (k : K) (v : V) (t : ℕ) :
      Reachable m → Reachable (m.set_value k v t)
  | remove_value {m : GcMap K V} (k : K) :
      Reachable m → Reachable (m.remove_value k)
  | gc {m : GcMap K V} (t : ℕ) :
      Reachable m → Reachable (m.gc t)

end Predicates

/-- A one-second bucket width, as in the concrete scenario of the spec. -/
def d1000 : Duration := ⟨1000, by decide⟩

/-- A three-second TTL, as in the concrete scenario of the spec. -/
def d3000 : Duration := ⟨3000, by decide⟩

/-- A Duration holding 7, for the construction-contract witness. -/
def d7 : Duration := ⟨7, by decide⟩

/-- The concrete scenario store of the spec: TTL 3000 ms, width 1000 ms,
key 0 set at 500 ms (slot 0) and key 1 set at 1200 ms (slot 1). -/
def mEx : GcMap ℕ ℕ :=
  ((GcMap.new d3000 d1000).set_value 0 1 500).set_value 1 2 1200

section BucketLemmas

variable {K V : Type} [DecidableEq K]

theorem bucketContains_cons (p : K × V) (b : List (K × V)) (key : K) :
    bucketContains (p :: b) key = (decide (p.1 = key) || bucketContains b key) := by
  simp [bucketContains]

theorem bucketGet_eq_none_of_not_contains {b : List (K × V)} {key : K}
    (h : bucketContains b key = false) : bucketGet b key = none := by
  induction b with
  | nil => rfl
  | cons p rest ih =>
    rw [bucketContains_cons] at h
    rcases Bool.or_eq_false_iff.mp h with ⟨h1, h2⟩
    have hp : p.1 ≠ key := of_decide_eq_false h1
    simp [bucketGet, hp, ih h2]

theorem bucketRemove_cons (p : K × V) (b : List (K × V)) (key : K) :
    bucketRemove (p :: b) key =
      if p.1 = key then bucketRemove b key else p :: bucketRemove b key := by
  by_cases hp : p.1 = key <;> simp [bucketRemove, List.filter_cons, hp]

theorem bucketContains_bucketRemove_self (b : List (K × V)) (key : K) :
    bucketContains (bucketRemove b key) key = false := by
  induction b with
  | nil => rfl
  | cons p rest ih =>
    rw [bucketRemove_cons]
    by_cases hp : p.1 = key
    · simpa [hp] using ih
    · simpa [hp, bucketContains_cons] using ih

theorem bucketContains_bucketRemove_ne {key' key : K} (b : List (K × V))
    (h : key' ≠ key) :
    bucketContains (bucketRemove b key) key' = bucketContains b key' := by
  induction b with
  | nil => rfl
  | cons p rest ih =>
    rw [bucketRemove_cons]
    by_cases hp : p.1 = key
    · have hp' : p.1 ≠ key' := by rw [hp]; exact fun e => h e.symm
      simp [hp, hp', bucketContains_cons, ih, Ne.symm h]
    · simp [hp, bucketContains_cons, ih]

theorem bucketGet_append_of_left_none {l1 : List (K × V)} {key : K}
    (l2 : List (K × V)) (h : bucketContains l1 key = false) :
    bucketGet (l1 ++ l2) key = bucketGet l2 key := by
  induction l1 with
  | nil => rfl
  | cons p rest ih =>
    rw [bucketContains_cons] at h
    rcases Bool.or_eq_false_iff.mp h with ⟨h1, h2⟩
    have hp : p.1 ≠ key := of_decide_eq_false h1
    simp [bucketGet, hp, ih h2]

theorem bucketGet_bucketInsert_self (b : List (K × V)) (key : K) (v : V) :
    bucketGet (bucketInsert b key v) key = some v := by
  rw [bucketInsert,
    bucketGet_append_of_left_none _ (bucketContains_bucketRemove_self b key)]
  simp [bucketGet]

theorem bucketContains_bucketInsert_self (b : List (K × V)) (key : K) (v : V) :
    bucketContains (bucketInsert b key v) key = true := by
  simp [bucketInsert, bucketContains]

theorem bucketContains_bucketInsert_ne {key' key : K} (b : List (K × V)) (v : V)
    (h : key' ≠ key) :
    bucketContains (bucketInsert b key v) key' = bucketContains b key' := by
  rw [bucketInsert, bucketContains, List.any_append]
  have h2 : bucketContains [(key, v)] key' = false := by
    simp [bucketContains]
    exact fun e => h e.symm
  rw [bucketContains] at h2
  rw [h2, Bool.or_false, ← bucketContains, bucketContains_bucketRemove_ne b h]

end BucketLemmas

section CountLemmas

variable {K V : Type} [DecidableEq K]

theorem keyCount_nil (key : K) : keyCount ([] : List (ℕ × List (K × V))) key = 0 := rfl

theorem keyCount_cons (p : ℕ × List (K × V)) (l : List (ℕ × List (K × V))) (key : K) :
    keyCount (p :: l) key =
      if bucketContains p.2 key then keyCount l key + 1 else keyCount l key := by
  by_cases h : bucketContains p.2 key <;>
    simp [keyCount, List.filter_cons, h, List.length_cons]

theorem keyCount_eq_zero_iff (l : List (ℕ × List (K × V))) (key : K) :
    keyCount l key = 0 ↔ NoKey l key := by
  rw [keyCount, List.length_eq_zero, List.filter_eq_nil_iff]
  constructor
  · intro h p hp
    have := h p hp
    simpa using this
  · intro h p hp
    simp [h p hp]

theorem keyCount_reverse (l : List (ℕ × List (K × V))) (key : K) :
    keyCount l.reverse key = keyCount l key := by
  rw [keyCount, List.filter_reverse, List.length_reverse, keyCount]

theorem noKey_reverse_iff (l : List (ℕ × List (K × V))) (key : K) :
    NoKey l.reverse key ↔ NoKey l key := by
  constructor <;> intro h p hp
  · exact h p (List.mem_reverse.mpr hp)
  · exact h p (List.mem_reverse.mp hp)

theorem keyCount_le_of_sublist {l1 l2 : List (ℕ × List (K × V))}
    (h : List.Sublist l1 l2) (key : K) : keyCount l1 key ≤ keyCount l2 key :=
  List.Sublist.length_le (List.Sublist.filter _ h)

theorem map_fst_removeFromFirst (l : List (ℕ × List (K × V))) (key : K) :
    (removeFromFirst l key).map Prod.fst = l.map Prod.fst := by
  induction l with
  | nil => rfl
  | cons p rest ih =>
    rcases p with ⟨s, b⟩
    by_cases h : bucketContains b key <;> simp [removeFromFirst, h, ih]

theorem noKey_removeFromFirst {l : List (ℕ × List (K × V))} {key : K}
    (h : keyCount l key ≤ 1) : NoKey (removeFromFirst l key) key := by
  induction l with
  | nil => intro p hp; cases hp
  | cons p rest ih =>
    rcases p with ⟨s, b⟩
    rw [keyCount_cons] at h
    by_cases hb : bucketContains b key
    · rw [hb] at h
      simp only [if_true] at h
      have hrest : keyCount rest key = 0 := by omega
      have hnk : NoKey rest key := (keyCount_eq_zero_iff rest key).mp hrest
      intro q hq
      rw [removeFromFirst, if_pos hb] at hq
      rcases List.mem_cons.mp hq with hq | hq
      · rw [hq]
        exact bucketContains_bucketRemove_self b key
      · exact hnk q hq
    · rw [if_neg hb] at h
      intro q hq
      rw [removeFromFirst, if_neg hb] at hq
      rcases List.mem_cons.mp hq with hq | hq
      · rw [hq]
        exact Bool.eq_false_iff.mpr hb
      · exact ih h q hq

theorem keyCount_removeFromFirst_le (l : List (ℕ × List (K × V))) (key key' : K) :
    keyCount (removeFromFirst l key) key' ≤ keyCount l key' := by
  induction l with
  | nil => exact Nat.le_refl _
  | cons p rest ih =>
    rcases p with ⟨s, b⟩
    by_cases hb : bucketContains b key
    · rw [removeFromFirst, if_pos hb, keyCount_cons, keyCount_cons]
      by_cases hk : key' = key
      · rw [hk, bucketContains_bucketRemove_self]
        simp only [Bool.false_eq_true, if_false]
        by_cases hb' : bucketContains b key <;> split <;> omega
      · rw [bucketContains_bucketRemove_ne b hk]
    · rw [removeFromFirst, if_neg hb, keyCount_cons, keyCount_cons]
      split <;> omega

theorem keyCount_removeFromFirst_ne {key key' : K} (l : List (ℕ × List (K × V)))
    (h : key' ≠ key) :
    keyCount (removeFromFirst l key) key' = keyCount l key' := by
  induction l with
  | nil => rfl
  | cons p rest ih =>
    rcases p with ⟨s, b⟩
    by_cases hb : bucketContains b key
    · rw [removeFromFirst, if_pos hb, keyCount_cons, keyCount_cons,
        bucketContains_bucketRemove_ne b h]
    · rw [removeFromFirst, if_neg hb, keyCount_cons, keyCount_cons, ih]

end CountLemmas

section EntryInsertLemmas

variable {K V : Type} [DecidableEq K]

theorem findSome?_eq_none_of_noKey {l : List (ℕ × List (K × V))} {key : K}
    (h : NoKey l key) :
    l.findSome? (fun p => bucketGet p.2 key) = none := by
  rw [List.findSome?_eq_none_iff]
  intro p hp
  exact bucketGet_eq_none_of_not_contains (h p hp)

theorem keyCount_entryInsert_self {l : List (ℕ × List (K × V))} {key : K}
    (slot : ℕ) (v : V) (h : NoKey l key) :
    keyCount (entryInsert l slot key v) key = 1 := by
  induction l with
  | nil =>
    rw [entryInsert, keyCount_cons]
    simp [bucketContains_bucketInsert_self, keyCount_nil]
  | cons p rest ih =>
    rcases p with ⟨s, b⟩
    have hb : bucketContains b key = false := h (s, b) (List.mem_cons_self _ _)
    have hrest : NoKey rest key := fun q hq => h q (List.mem_cons_of_mem _ hq)
    rw [entryInsert]
    by_cases h1 : slot < s
    · rw [if_pos h1, keyCount_cons, keyCount_cons]
      simp only [bucketContains_bucketInsert_self, if_true]
      rw [(keyCount_eq_zero_iff rest key).mpr hrest]
      simp [hb]
    · rw [if_neg h1]
      by_cases h2 : slot = s
      · rw [if_pos h2, keyCount_cons]
        simp only [bucketContains_bucketInsert_self, if_true]
        rw [(keyCount_eq_zero_iff rest key).mpr hrest]
      · rw [if_neg h2, keyCount_cons, hb]
        simp only [Bool.false_eq_true, if_false]
        exact ih hrest

theorem keyCount_entryInsert_ne {key key' : K} (l : List (ℕ × List (K × V)))
    (slot : ℕ) (v : V) (h : key' ≠ key) :
    keyCount (entryInsert l slot key v) key' = keyCount l key' := by
  induction l with
  | nil =>
    rw [entryInsert, keyCount_cons]
    simp only [bucketContains_bucketInsert_ne _ _ h]
    simp [bucketContains, keyCount_nil]
  | cons p rest ih =>
    rcases p with ⟨s, b⟩
    rw [entryInsert]
    by_cases h1 : slot < s
    · rw [if_pos h1, keyCount_cons, keyCount_cons]
      simp only [bucketContains_bucketInsert_ne _ _ h]
      simp [bucketContains]
    · rw [if_neg h1]
      by_cases h2 : slot = s
      · rw [if_pos h2, keyCount_cons, keyCount_cons]
        simp only [bucketContains_bucketInsert_ne _ _ h]
      · rw [if_neg h2, keyCount_cons, keyCount_cons, ih]

theorem contains_entryInsert_imp_slot {l : List (ℕ × List (K × V))} {key : K}
    {slot : ℕ} {v : V} (h : NoKey l key) :
    ∀ p ∈ entryInsert l slot key v, bucketContains p.2 key = true → p.1 = slot := by
  induction l with
  | nil =>
    intro p hp _
    rw [entryInsert, List.mem_singleton] at hp
    rw [hp]
  | cons q rest ih =>
    rcases q with ⟨s, b⟩
    have hb : bucketContains b key = false := h (s, b) (List.mem_cons_self _ _)
    have hrest : NoKey rest key := fun r hr => h r (List.mem_cons_of_mem _ hr)
    intro p hp hc
    rw [entryInsert] at hp
    by_cases h1 : slot < s
    · rw [if_pos h1] at hp
      rcases List.mem_cons.mp hp with hp | hp
      · rw [hp]
      · rcases List.mem_cons.mp hp with hp | hp
        · rw [hp] at hc; rw [hb] at hc; cases hc
        · have := hrest p hp; rw [this] at hc; cases hc
    · rw [if_neg h1] at hp
      by_cases h2 : slot = s
      · rw [if_pos h2] at hp
        rcases List.mem_cons.mp hp with hp | hp
        · rw [hp, h2]
        · have := hrest p hp; rw [this] at hc; cases hc
      · rw [if_neg h2] at hp
        rcases List.mem_cons.mp hp with hp | hp
        · rw [hp] at hc; rw [hb] at hc; cases hc
        · exact ih hrest p hp hc

theorem findSome?_entryInsert {l : List (ℕ × List (K × V))} {key : K}
    (slot : ℕ) (v : V) (h : NoKey l key) :
    (entryInsert l slot key v).reverse.findSome? (fun p => bucketGet p.2 key) =
      some v := by
  induction l with
  | nil =>
    rw [entryInsert]
    simp [List.findSome?, bucketGet_bucketInsert_self]
  | cons q rest ih =>
    rcases q with ⟨s, b⟩
    have hb : bucketContains b key = false := h (s, b) (List.mem_cons_self _ _)
    have hrest : NoKey rest key := fun r hr => h r (List.mem_cons_of_mem _ hr)
    rw [entryInsert]
    by_cases h1 : slot < s
    · rw [if_pos h1, List.reverse_cons, List.findSome?_append]
      have hnone : (((s, b) :: rest).reverse).findSome?
          (fun p => bucketGet p.2 key) = none := by
        refine findSome?_eq_none_of_noKey ?_
        exact (noKey_reverse_iff _ _).mpr h
      rw [hnone]
      simp [List.findSome?, bucketGet_bucketInsert_self]
    · rw [if_neg h1]
      by_cases h2 : slot = s
      · rw [if_pos h2, List.reverse_cons, List.findSome?_append]
        have hnone : (rest.reverse).findSome? (fun p => bucketGet p.2 key) = none :=
          findSome?_eq_none_of_noKey ((noKey_reverse_iff _ _).mpr hrest)
        rw [hnone]
        simp [List.findSome?, bucketGet_bucketInsert_self]
      · rw [if_neg h2, List.reverse_cons, List.findSome?_append, ih hrest]
        rfl

theorem btLookup_entryInsert (l : List (ℕ × List (K × V))) (slot : ℕ) (key : K)
    (v : V) :
    ∃ b, btLookup (entryInsert l slot key v) slot = some b ∧
      bucketContains b key = true := by
  induction l with
  | nil =>
    exact ⟨bucketInsert [] key v, by simp [entryInsert, btLookup],
      bucketContains_bucketInsert_self _ _ _⟩
  | cons q rest ih =>
    rcases q with ⟨s, b⟩
    rw [entryInsert]
    by_cases h1 : slot < s
    · rw [if_pos h1]
      exact ⟨bucketInsert [] key v, by simp [btLookup],
        bucketContains_bucketInsert_self _ _ _⟩
    · rw [if_neg h1]
      by_cases h2 : slot = s
      · rw [if_pos h2]
        exact ⟨bucketInsert b key v, by simp [btLookup, h2],
          bucketContains_bucketInsert_self _ _ _⟩
      · rw [if_neg h2]
        rcases ih with ⟨b', hb', hc'⟩
        refine ⟨b', ?_, hc'⟩
        rw [btLookup, if_neg (fun e => h2 e.symm), hb']

theorem mem_map_fst_entryInsert {l : List (ℕ × List (K × V))} {key : K}
    {slot x : ℕ} {v : V}
    (hx : x ∈ (entryInsert l slot key v).map Prod.fst) :
    x = slot ∨ x ∈ l.map Prod.fst := by
  induction l with
  | nil =>
    rw [entryInsert] at hx
    simp at hx
    exact Or.inl hx
  | cons q rest ih =>
    rcases q with ⟨s, b⟩
    rw [entryInsert] at hx
    by_cases h1 : slot < s
    · rw [if_pos h1] at hx
      simp only [List.map_cons, List.mem_cons] at hx
      rcases hx with hx | hx | hx
      · exact Or.inl hx
      · exact Or.inr (by simp [hx])
      · exact Or.inr (by simp [hx])
    · rw [if_neg h1] at hx
      by_cases h2 : slot = s
      · rw [if_pos h2] at hx
        simp only [List.map_cons, List.mem_cons] at hx
        rcases hx with hx | hx
        · exact Or.inl (by rw [hx, h2])
        · exact Or.inr (by simp [hx])
      · rw [if_neg h2] at hx
        simp only [List.map_cons, List.mem_cons] at hx
        rcases hx with hx | hx
        · exact Or.inr (by simp [hx])
        · rcases ih hx with h | h
          · exact Or.inl h
          · exact Or.inr (by simp [h])

theorem pairwise_entryInsert {l : List (ℕ × List (K × V))} {key : K}
    {slot : ℕ} {v : V} (h : (l.map Prod.fst).Pairwise (· < ·)) :
    ((entryInsert l slot key v).map Prod.fst).Pairwise (· < ·) := by
  induction l with
  | nil =>
    rw [entryInsert]
    simp
  | cons q rest ih =>
    rcases q with ⟨s, b⟩
    rw [List.map_cons, List.pairwise_cons] at h
    rcases h with ⟨hs, hrest⟩
    rw [entryInsert]
    by_cases h1 : slot < s
    · rw [if_pos h1, List.map_cons, List.map_cons, List.pairwise_cons]
      constructor
      · intro x hx
        rcases List.mem_cons.mp hx with hx | hx
        · rw [hx]; exact h1
        · exact Nat.lt_trans h1 (hs x hx)
      · rw [List.pairwise_cons]
        exact ⟨hs, hrest⟩
    · rw [if_neg h1]
      by_cases h2 : slot = s
      · rw [if_pos h2, List.map_cons, List.pairwise_cons]
        exact ⟨hs, hrest⟩
      · have hs' : s < slot := by omega
        rw [if_neg h2, List.map_cons, List.pairwise_cons]
        constructor
        · intro x hx
          rcases mem_map_fst_entryInsert hx with hx | hx
          · rw [hx]; exact hs'
          · exact hs x hx
        · exact ih hrest

end EntryInsertLemmas

section GcEngineLemmas

variable {K V : Type} [DecidableEq K]

theorem wrapSub_of_le {a b : ℕ} (hba : b ≤ a) (ha : a < U64) :
    wrapSub a b = a - b := by
  rw [wrapSub]
  have h1 : U64 + a - b = U64 + (a - b) := by omega
  rw [h1, Nat.add_mod_left, Nat.mod_eq_of_lt (by omega)]

theorem takeWhile_eq_filter_of_pairwise {L : List ℕ} {c : ℕ}
    (h : L.Pairwise (· < ·)) :
    L.takeWhile (fun s => decide (s < c)) = L.filter (fun s => decide (s < c)) := by
  induction L with
  | nil => rfl
  | cons a L ih =>
    rw [List.pairwise_cons] at h
    rcases h with ⟨ha, hL⟩
    by_cases hc : a < c
    · rw [List.takeWhile_cons, List.filter_cons, ih hL]
      simp [hc]
    · have hfil : L.filter (fun s => decide (s < c)) = [] := by
        rw [List.filter_eq_nil_iff]
        intro x hx
        simp only [decide_eq_true_eq]
        have := ha x hx
        omega
      rw [List.takeWhile_cons, List.filter_cons, hfil]
      simp [hc]

theorem foldl_btreeRemove_eq_filter (S : List ℕ) (l : List (ℕ × List (K × V))) :
    S.foldl (fun l s => btreeRemove l s) l =
      l.filter (fun p => decide (p.1 ∉ S)) := by
  induction S generalizing l with
  | nil => simp
  | cons s S ih =>
    rw [List.foldl_cons, ih, btreeRemove, List.filter_filter]
    apply List.filter_congr
    intro p _
    by_cases h1 : p.1 = s
    · simp [h1]
    · by_cases h2 : p.1 ∈ S <;> simp [h1, h2]

theorem takeWhile_filter_out_eq_nil {c : ℕ} (l : List (ℕ × List (K × V)))
    (Q : List ℕ)
    (hsub : ∀ x ∈ (l.map Prod.fst).takeWhile (fun s => decide (s < c)), x ∈ Q)
    (hlt : ∀ x ∈ Q, x < c) :
    ((l.filter (fun p => decide (p.1 ∉ Q))).map Prod.fst).takeWhile
      (fun s => decide (s < c)) = [] := by
  induction l with
  | nil => rfl
  | cons p rest ih
  =>
    rcases p with ⟨s, b⟩
    by_cases hq : s ∈ Q
    · rw [List.filter_cons]
      have hd : decide ((s, b).1 ∉ Q) = false := by simp [hq]
      rw [hd]
      simp only [Bool.false_eq_true, if_false]
      apply ih
      intro x hx
      apply hsub
      have hs : s < c := hlt s hq
      rw [List.map_cons, List.takeWhile_cons]
      have hd2 : decide (s < c) = true := by simp [hs]
      rw [hd2]
      simp only [if_true]
      exact List.mem_cons_of_mem _ hx
    · have hsc : ¬ s < c := by
        intro hs
        apply hq
        apply hsub
        rw [List.map_cons, List.takeWhile_cons]
        have hd2 : decide (s < c) = true := by simp [hs]
        rw [hd2]
        simp only [if_true]
        exact List.mem_cons_self _ _
      rw [List.filter_cons]
      have hd : decide ((s, b).1 ∉ Q) = true := by simp [hq]
      rw [hd]
      simp only [if_true]
      rw [List.map_cons, List.takeWhile_cons]
      have hd3 : decide (s < c) = false := by simp [hsc]
      rw [hd3]
      simp only [Bool.false_eq_true, if_false]

theorem mem_takeWhile_lt {c : ℕ} {L : List ℕ} {x : ℕ}
    (hx : x ∈ L.takeWhile (fun s => decide (s < c))) : x < c := by
  induction L with
  | nil => cases hx
  | cons a L ih =>
    rw [List.takeWhile_cons] at hx
    by_cases ha : a < c
    · have hd : decide (a < c) = true := by simp [ha]
      rw [hd] at hx
      simp only [if_true] at hx
      rcases List.mem_cons.mp hx with h | h
      · rw [h]; exact ha
      · exact ih h
    · have hd : decide (a < c) = false := by simp [ha]
      rw [hd] at hx
      simp only [Bool.false_eq_true, if_false] at hx
      cases hx

end GcEngineLemmas

section StoreLemmas

variable {K V : Type} [DecidableEq K]

theorem remove_value_lifetimes (m : GcMap K V) (k : K) :
    (m.remove_value k).value_lifetimes =
      (removeFromFirst m.value_lifetimes.reverse k).reverse := rfl

theorem set_value_lifetimes (m : GcMap K V) (k : K) (v : V) (t : ℕ) :
    (m.set_value k v t).value_lifetimes =
      entryInsert (m.remove_value k).value_lifetimes
        (t / m.gc_slot_duration_ms.get) k v := rfl

theorem noKey_remove_value {m : GcMap K V} {k : K}
    (h : keyCount m.value_lifetimes k ≤ 1) :
    NoKey (m.remove_value k).value_lifetimes k := by
  rw [remove_value_lifetimes]
  rw [noKey_reverse_iff]
  apply noKey_removeFromFirst
  rw [keyCount_reverse]
  exact h

theorem keyCount_remove_value_le (m : GcMap K V) (k key' : K) :
    keyCount (m.remove_value k).value_lifetimes key' ≤
      keyCount m.value_lifetimes key' := by
  rw [remove_value_lifetimes, keyCount_reverse]
  calc keyCount (removeFromFirst m.value_lifetimes.reverse k) key'
      ≤ keyCount m.value_lifetimes.reverse key' :=
        keyCount_removeFromFirst_le _ _ _
    _ = keyCount m.value_lifetimes key' := keyCount_reverse _ _

theorem keyCount_remove_value_ne {k key' : K} (m : GcMap K V) (h : key' ≠ k) :
    keyCount (m.remove_value k).value_lifetimes key' =
      keyCount m.value_lifetimes key' := by
  rw [remove_value_lifetimes, keyCount_reverse, keyCount_removeFromFirst_ne _ h,
    keyCount_reverse]

theorem map_fst_remove_value (m : GcMap K V) (k : K) :
    ((m.remove_value k).value_lifetimes).map Prod.fst =
      m.value_lifetimes.map Prod.fst := by
  rw [remove_value_lifetimes, List.map_reverse, map_fst_removeFromFirst,
    List.map_reverse, List.reverse_reverse]

theorem keyCount_set_value_self {m : GcMap K V} {k : K} (v : V) (t : ℕ)
    (h : keyCount m.value_lifetimes k ≤ 1) :
    keyCount (m.set_value k v t).value_lifetimes k = 1 := by
  rw [set_value_lifetimes]
  exact keyCount_entryInsert_self _ _ (noKey_remove_value h)

theorem keyCount_set_value_ne {k key' : K} (m : GcMap K V) (v : V) (t : ℕ)
    (h : key' ≠ k) :
    keyCount (m.set_value k v t).value_lifetimes key' =
      keyCount m.value_lifetimes key' := by
  rw [set_value_lifetimes, keyCount_entryInsert_ne _ _ _ h,
    keyCount_remove_value_ne _ h]

theorem get_value_eq_none_of_noKey {m : GcMap K V} {k : K}
    (h : NoKey m.value_lifetimes k) : m.get_value k = none := by
  rw [GcMap.get_value]
  exact findSome?_eq_none_of_noKey ((noKey_reverse_iff _ _).mpr h)

theorem get_value_set_value_self {m : GcMap K V} {k : K} (v : V) (t : ℕ)
    (h : keyCount m.value_lifetimes k ≤ 1) :
    (m.set_value k v t).get_value k = some v := by
  rw [GcMap.get_value, set_value_lifetimes]
  exact findSome?_entryInsert _ _ (noKey_remove_value h)

theorem get_value_remove_value_self {m : GcMap K V} {k : K}
    (h : keyCount m.value_lifetimes k ≤ 1) :
    (m.remove_value k).get_value k = none :=
  get_value_eq_none_of_noKey (noKey_remove_value h)

theorem gc_value_lifetimes_foldl (m : GcMap K V) (t : ℕ) :
    (m.gc t).value_lifetimes = m.value_lifetimes.filter
      (fun p => decide (p.1 ∉ (m.value_lifetimes.map Prod.fst).takeWhile
        (fun s => decide (s < wrapSub (t / m.gc_slot_duration_ms.get)
          (m.value_ttl_ms.get / m.gc_slot_duration_ms.get))))) := by
  rw [GcMap.gc]
  exact foldl_btreeRemove_eq_filter _ _

theorem gc_value_lifetimes_eq {m : GcMap K V} (t : ℕ)
    (hs : (m.value_lifetimes.map Prod.fst).Pairwise (· < ·))
    (hle : m.value_ttl_ms.get / m.gc_slot_duration_ms.get ≤
      t / m.gc_slot_duration_ms.get)
    (ht : t < U64) :
    (m.gc t).value_lifetimes = m.value_lifetimes.filter
      (fun p => decide (t / m.gc_slot_duration_ms.get -
        m.value_ttl_ms.get / m.gc_slot_duration_ms.get ≤ p.1)) := by
  have hWlt : t / m.gc_slot_duration_ms.get < U64 :=
    Nat.lt_of_le_of_lt (Nat.div_le_self t _) ht
  have hcut : wrapSub (t / m.gc_slot_duration_ms.get)
      (m.value_ttl_ms.get / m.gc_slot_duration_ms.get) =
      t / m.gc_slot_duration_ms.get -
        m.value_ttl_ms.get / m.gc_slot_duration_ms.get :=
    wrapSub_of_le hle hWlt
  rw [gc_value_lifetimes_foldl, hcut, takeWhile_eq_filter_of_pairwise hs]
  apply List.filter_congr
  intro p hp
  have hmem : p.1 ∈ m.value_lifetimes.map Prod.fst :=
    List.mem_map_of_mem Prod.fst hp
  by_cases hcase : p.1 < t / m.gc_slot_duration_ms.get -
      m.value_ttl_ms.get / m.gc_slot_duration_ms.get
  · simp [List.mem_filter, hmem, hcase, Nat.not_le.mpr hcase]
  · simp [List.mem_filter, hcase, Nat.le_of_not_lt hcase]

theorem gc_eq_self_of_takeWhile_nil {m : GcMap K V} {t : ℕ}
    (h : (m.value_lifetimes.map Prod.fst).takeWhile
      (fun s => decide (s < wrapSub (t / m.gc_slot_duration_ms.get)
        (m.value_ttl_ms.get / m.gc_slot_duration_ms.get))) = []) :
    m.gc t = m := by
  rw [GcMap.gc, h]
  rfl

end StoreLemmas

section InvariantLemmas

variable {K V : Type} [DecidableEq K]

theorem uniqueKeys_new (ttl width : Duration) :
    UniqueKeys (GcMap.new ttl width : GcMap K V) := by
  intro key
  rw [GcMap.new]
  exact Nat.zero_le 1

theorem uniqueKeys_remove_value {m : GcMap K V} (k : K) (h : UniqueKeys m) :
    UniqueKeys (m.remove_value k) :=
  fun key => Nat.le_trans (keyCount_remove_value_le m k key) (h key)

theorem uniqueKeys_set_value {m : GcMap K V} (k : K) (v : V) (t : ℕ)
    (h : UniqueKeys m) : UniqueKeys (m.set_value k v t) := by
  intro key
  by_cases hk : key = k
  · rw [hk, keyCount_set_value_self v t (h k)]
  · rw [keyCount_set_value_ne m v t hk]
    exact h key

theorem uniqueKeys_gc {m : GcMap K V} (t : ℕ) (h : UniqueKeys m) :
    UniqueKeys (m.gc t) := by
  intro key
  rw [gc_value_lifetimes_foldl]
  exact Nat.le_trans (keyCount_le_of_sublist (List.filter_sublist _) key) (h key)

theorem sortedSlots_new (ttl width : Duration) :
    SortedSlots (GcMap.new ttl width : GcMap K V) := by
  rw [SortedSlots, GcMap.new]
  exact List.Pairwise.nil

theorem sortedSlots_remove_value {m : GcMap K V} (k : K) (h : SortedSlots m) :
    SortedSlots (m.remove_value k) := by
  rw [SortedSlots, map_fst_remove_value]
  exact h

theorem sortedSlots_set_value {m : GcMap K V} (k : K) (v : V) (t : ℕ)
    (h : SortedSlots m) : SortedSlots (m.set_value k v t) := by
  rw [SortedSlots, set_value_lifetimes]
  apply pairwise_entryInsert
  rw [map_fst_remove_value]
  exact h

theorem sortedSlots_gc {m : GcMap K V} (t : ℕ) (h : SortedSlots m) :
    SortedSlots (m.gc t) := by
  rw [SortedSlots, gc_value_lifetimes_foldl]
  exact h.sublist ((List.filter_sublist _).map Prod.fst)

theorem reachable_uniqueKeys {m : GcMap K V} (h : Reachable m) : UniqueKeys m := by
  induction h with
  | new ttl width => exact uniqueKeys_new ttl width
  | set_value k v t _ ih => exact uniqueKeys_set_value k v t ih
  | remove_value k _ ih => exact uniqueKeys_remove_value k ih
  | gc t _ ih => exact uniqueKeys_gc t ih

theorem reachable_sortedSlots {m : GcMap K V} (h : Reachable m) : SortedSlots m := by
  induction h with
  | new ttl width => exact sortedSlots_new ttl width
  | set_value k v t _ ih => exact sortedSlots_set_value k v t ih
  | remove_value k _ ih => exact sortedSlots_remove_value k ih
  | gc t _ ih => exact sortedSlots_gc t ih

end InvariantLemmas

section Arith

theorem div_add_div_succ_le (t T W : ℕ) (hW : 0 < W) :
    t / W + T / W + 1 ≤ (t + T + W) / W := by
  rw [Nat.le_div_iff_mul_le hW]
  have h1 : t / W * W ≤ t := Nat.div_mul_le_self t W
  have h2 : T / W * W ≤ T := Nat.div_mul_le_self T W
  have h3 : (t / W + T / W + 1) * W = t / W * W + T / W * W + W := by ring
  omega

end Arith

/-- C1: Key uniqueness invariant.  Every state reachable from new by
set_value, remove_value and gc calls has every key in at most one bucket of
value_lifetimes, and after set_value(key, v1, t1) followed by
set_value(key, v2, t2) with t2 >= t1 starting from a fresh store, exactly one
bucket contains the key and get_value returns v2. -/
theorem C1_key_uniqueness {K V : Type} [DecidableEq K] (m : GcMap K V)
    (ttl width : Duration) (k : K) (v1 v2 : V) (t1 t2 : ℕ)
    (hr : Reachable m) (hle : t1 ≤ t2) :
    UniqueKeys m ∧
      keyCount (((GcMap.new ttl width).set_value k v1 t1).set_value
        k v2 t2).value_lifetimes k = 1 ∧
      (((GcMap.new ttl width).set_value k v1 t1).set_value
        k v2 t2).get_value k = some v2 := by
  have h1 : keyCount ((GcMap.new ttl width).set_value k v1 t1 :
      GcMap K V).value_lifetimes k ≤ 1 :=
    uniqueKeys_set_value k v1 t1 (uniqueKeys_new ttl width) k
  exact ⟨reachable_uniqueKeys hr, keyCount_set_value_self v2 t2 h1,
    get_value_set_value_self v2 t2 h1⟩

/-- Witness for C1 at the concrete scenario store, with t1 = 0 ≤ 1200 = t2. -/
theorem C1_key_uniqueness_witness :
    Reachable mEx ∧ (0 : ℕ) ≤ 1200 ∧
      (UniqueKeys mEx ∧
        keyCount (((GcMap.new d3000 d1000).set_value (0 : ℕ) (10 : ℕ) 0).set_value
          0 20 1200).value_lifetimes 0 = 1 ∧
        (((GcMap.new d3000 d1000).set_value (0 : ℕ) (10 : ℕ) 0).set_value
          0 20 1200).get_value 0 = some 20) := by
  have hr : Reachable mEx :=
    Reachable.set_value 1 2 1200
      (Reachable.set_value 0 1 500 (Reachable.new d3000 d1000))
  exact ⟨hr, by decide,
    C1_key_uniqueness mEx d3000 d1000 0 10 20 0 1200 hr (by decide)⟩

/-- C2: gc postcondition.  When t / W is at least T / W (no underflow), gc(t)
keeps exactly the buckets with id at least cutoff = t / W - T / W, with their
entries untouched, and removes all buckets below the cutoff. -/
theorem C2_gc_postcondition {K V : Type} [DecidableEq K] (m : GcMap K V)
    (t : ℕ) (hr : Reachable m)
    (hge : m.value_ttl_ms.get / m.gc_slot_duration_ms.get ≤
      t / m.gc_slot_duration_ms.get)
    (ht : t < U64) :
    (m.gc t).value_lifetimes = m.value_lifetimes.filter
      (fun p => decide (t / m.gc_slot_duration_ms.get -
        m.value_ttl_ms.get / m.gc_slot_duration_ms.get ≤ p.1)) :=
  gc_value_lifetimes_eq t (reachable_sortedSlots hr) hge ht

/-- Witness for C2 at the concrete scenario store with t = 4600. -/
theorem C2_gc_postcondition_witness :
    Reachable mEx ∧
      mEx.value_ttl_ms.get / mEx.gc_slot_duration_ms.get ≤
        4600 / mEx.gc_slot_duration_ms.get ∧
      4600 < U64 ∧
      (mEx.gc 4600).value_lifetimes = mEx.value_lifetimes.filter
        (fun p => decide (4600 / mEx.gc_slot_duration_ms.get -
          mEx.value_ttl_ms.get / mEx.gc_slot_duration_ms.get ≤ p.1)) := by
  have hr : Reachable mEx :=
    Reachable.set_value 1 2 1200
      (Reachable.set_value 0 1 500 (Reachable.new d3000 d1000))
  have hge : mEx.value_ttl_ms.get / mEx.gc_slot_duration_ms.get ≤
      4600 / mEx.gc_slot_duration_ms.get := by decide
  have ht : 4600 < U64 := by decide
  exact ⟨hr, hge, ht, C2_gc_postcondition mEx 4600 hr hge ht⟩

/-- C3: the claim of underflow safety FAILS on the code.  With TTL 3000 and
width 1000, after inserting at time 0 (bucket 0), gc(500) has
t / W = 0 < 3 = T / W; the source computes the cutoff with unsigned
subtraction, which wraps to 2^64 - 3, so gc removes bucket 0 instead of
removing zero buckets (a debug build aborts on the same subtraction).  The
spec itself calls this arithmetic a defect of the source. -/
theorem C3_gc_underflow_eviction :
    ((((GcMap.new d3000 d1000).set_value (0 : ℕ) (0 : ℕ) 0).gc
        500).value_lifetimes = []) ∧
      ((GcMap.new d3000 d1000).set_value (0 : ℕ) (0 : ℕ)
        0).value_lifetimes = [(0, [(0, 0)])] :=
  ⟨rfl, rfl⟩

/-- C4: lazy expiration.  get_value takes no clock argument, so its result
cannot depend on how much time has passed; after set_value(k, v, t) with no
intervening gc it returns some v whatever the later time is.  Expiration is
enforced only by gc. -/
theorem C4_lazy_expiration {K V : Type} [DecidableEq K] (m : GcMap K V)
    (k : K) (v : V) (t : ℕ) (hr : Reachable m) :
    (m.set_value k v t).get_value k = some v :=
  get_value_set_value_self v t (reachable_uniqueKeys hr k)

/-- Witness for C4 at the concrete scenario store. -/
theorem C4_lazy_expiration_witness :
    Reachable mEx ∧ (mEx.set_value 5 9 999999).get_value 5 = some 9 := by
  have hr : Reachable mEx :=
    Reachable.set_value 1 2 1200
      (Reachable.set_value 0 1 500 (Reachable.new d3000 d1000))
  exact ⟨hr, C4_lazy_expiration mEx 5 9 999999 hr⟩

/-- C5: eviction correctness.  After set_value(k, v, t), a single
gc(t + T + W) call evicts the bucket of k, and get_value k returns none. -/
theorem C5_eviction_correctness {K V : Type} [DecidableEq K] (m : GcMap K V)
    (k : K) (v : V) (t : ℕ) (hr : Reachable m)
    (ht : t + m.value_ttl_ms.get + m.gc_slot_duration_ms.get < U64) :
    ((m.set_value k v t).gc
      (t + m.value_ttl_ms.get + m.gc_slot_duration_ms.get)).get_value k =
      none := by
  have hWpos : 0 < m.gc_slot_duration_ms.get := m.gc_slot_duration_ms.pos
  have hsorted : SortedSlots (m.set_value k v t) :=
    sortedSlots_set_value k v t (reachable_sortedSlots hr)
  have hge : (m.set_value k v t).value_ttl_ms.get /
      (m.set_value k v t).gc_slot_duration_ms.get ≤
      (t + m.value_ttl_ms.get + m.gc_slot_duration_ms.get) /
        (m.set_value k v t).gc_slot_duration_ms.get := by
    show m.value_ttl_ms.get / m.gc_slot_duration_ms.get ≤
      (t + m.value_ttl_ms.get + m.gc_slot_duration_ms.get) /
        m.gc_slot_duration_ms.get
    exact Nat.div_le_div_right (by omega)
  have hlife := gc_value_lifetimes_eq
    (m := m.set_value k v t)
    (t + m.value_ttl_ms.get + m.gc_slot_duration_ms.get) hsorted hge ht
  apply get_value_eq_none_of_noKey
  rw [hlife]
  intro p hp
  rw [List.mem_filter] at hp
  rcases hp with ⟨hpmem, hpc⟩
  cases hb : bucketContains p.2 k with
  | false => rfl
  | true =>
    exfalso
    rw [set_value_lifetimes] at hpmem
    have hslot : p.1 = t / m.gc_slot_duration_ms.get :=
      contains_entryInsert_imp_slot
        (noKey_remove_value (reachable_uniqueKeys hr k)) p hpmem hb
    have harith : t / m.gc_slot_duration_ms.get +
        m.value_ttl_ms.get / m.gc_slot_duration_ms.get + 1 ≤
        (t + m.value_ttl_ms.get + m.gc_slot_duration_ms.get) /
          m.gc_slot_duration_ms.get :=
      div_add_div_succ_le t m.value_ttl_ms.get m.gc_slot_duration_ms.get hWpos
    have hple : (t + m.value_ttl_ms.get + m.gc_slot_duration_ms.get) /
        m.gc_slot_duration_ms.get -
        m.value_ttl_ms.get / m.gc_slot_duration_ms.get ≤ p.1 :=
      of_decide_eq_true hpc
    rw [hslot] at hple
    omega

/-- Witness for C5 at the concrete scenario store. -/
theorem C5_eviction_correctness_witness :
    Reachable mEx ∧
      500 + mEx.value_ttl_ms.get + mEx.gc_slot_duration_ms.get < U64 ∧
      ((mEx.set_value 9 9 500).gc
        (500 + mEx.value_ttl_ms.get + mEx.gc_slot_duration_ms.get)).get_value 9 =
        none := by
  have hr : Reachable mEx :=
    Reachable.set_value 1 2 1200
      (Reachable.set_value 0 1 500 (Reachable.new d3000 d1000))
  have ht : 500 + mEx.value_ttl_ms.get + mEx.gc_slot_duration_ms.get < U64 := by
    decide
  exact ⟨hr, ht, C5_eviction_correctness mEx 9 9 500 hr ht⟩

/-- C6: the claim of no premature eviction FAILS on the code through the same
unsigned-subtraction defect as C3.  With T = W = 1000 (so W <= T) and t = 0,
the call gc(t + T - W) = gc(0) has t / W = 0 < 1 = T / W, the cutoff wraps to
2^64 - 1, bucket 0 is evicted, and get_value returns none although the claim
predicts some 7 (a debug build aborts instead). -/
theorem C6_premature_eviction_underflow :
    (((GcMap.new d1000 d1000).set_value (0 : ℕ) (7 : ℕ) 0).gc
        (0 + 1000 - 1000)).get_value 0 = none ∧
      ((GcMap.new d1000 d1000).set_value (0 : ℕ) (7 : ℕ) 0).get_value 0 =
        some 7 :=
  ⟨rfl, rfl⟩

/-- C7: bucket routing determinism.  set_value(k, v, t) stores k in the
bucket with id t / W (integer division), and two timestamps with the same
quotient produce identical stores. -/
theorem C7_bucket_routing {K V : Type} [DecidableEq K] (m : GcMap K V)
    (k : K) (v : V) (t t' : ℕ)
    (h : t / m.gc_slot_duration_ms.get = t' / m.gc_slot_duration_ms.get) :
    (∃ b, btLookup (m.set_value k v t).value_lifetimes
        (t / m.gc_slot_duration_ms.get) = some b ∧
        bucketContains b k = true) ∧
      m.set_value k v t = m.set_value k v t' := by
  constructor
  · rw [set_value_lifetimes]
    exact btLookup_entryInsert _ _ _ _
  · have h' : t / (m.remove_value k).gc_slot_duration_ms.get =
        t' / (m.remove_value k).gc_slot_duration_ms.get := h
    simp only [GcMap.set_value]
    rw [h']

/-- Witness for C7: timestamps 1200 and 1700 share bucket 1 of width 1000. -/
theorem C7_bucket_routing_witness :
    1200 / (GcMap.new d3000 d1000 : GcMap ℕ ℕ).gc_slot_duration_ms.get =
      1700 / (GcMap.new d3000 d1000 : GcMap ℕ ℕ).gc_slot_duration_ms.get ∧
    ((∃ b, btLookup ((GcMap.new d3000 d1000 : GcMap ℕ ℕ).set_value 3 4
        1200).value_lifetimes
        (1200 / (GcMap.new d3000 d1000 : GcMap ℕ ℕ).gc_slot_duration_ms.get) =
        some b ∧ bucketContains b 3 = true) ∧
      (GcMap.new d3000 d1000 : GcMap ℕ ℕ).set_value 3 4 1200 =
        (GcMap.new d3000 d1000 : GcMap ℕ ℕ).set_value 3 4 1700) := by
  have h : 1200 / (GcMap.new d3000 d1000 : GcMap ℕ ℕ).gc_slot_duration_ms.get =
      1700 / (GcMap.new d3000 d1000 : GcMap ℕ ℕ).gc_slot_duration_ms.get := by
    decide
  exact ⟨h, C7_bucket_routing (GcMap.new d3000 d1000) 3 4 1200 1700 h⟩

/-- C8: Duration construction contract.  try_new fails exactly on zero, and
on success get returns the stored value.  Proved for every natural number
input, hence in particular for every 64-bit one. -/
theorem C8_duration_contract (value_ms : ℕ) :
    (Duration.try_new value_ms = none ↔ value_ms = 0) ∧
      ∀ d, Duration.try_new value_ms = some d → d.get = value_ms := by
  constructor
  · constructor
    · intro h
      by_contra hne
      have hpos : 0 < value_ms := Nat.pos_of_ne_zero hne
      rw [Duration.try_new, dif_pos hpos] at h
      cases h
    · intro h
      rw [h]
      rfl
  · intro d hd
    by_cases hpos : 0 < value_ms
    · rw [Duration.try_new, dif_pos hpos] at hd
      cases hd
      rfl
    · rw [Duration.try_new, dif_neg hpos] at hd
      cases hd

/-- Witness for C8 at inputs 0 (rejected) and 7 (accepted, get yields 7). -/
theorem C8_duration_contract_witness :
    Duration.try_new 0 = none ∧ d7.get = 7 :=
  ⟨(C8_duration_contract 0).1.mpr rfl, (C8_duration_contract 7).2 d7 rfl⟩

/-- C9: removal.  On any reachable store, after remove_value k, get_value k
is none; a following set_value k v' t' makes get_value k return some v', with
the key present in exactly one bucket, the one with id t' / W. -/
theorem C9_removal {K V : Type} [DecidableEq K] (m : GcMap K V) (k : K)
    (v' : V) (t' : ℕ) (hr : Reachable m) :
    (m.remove_value k).get_value k = none ∧
      ((m.remove_value k).set_value k v' t').get_value k = some v' ∧
      keyCount ((m.remove_value k).set_value k v' t').value_lifetimes k = 1 ∧
      ∃ b, btLookup ((m.remove_value k).set_value k v' t').value_lifetimes
        (t' / m.gc_slot_duration_ms.get) = some b ∧
        bucketContains b k = true := by
  have hu := reachable_uniqueKeys hr
  have h1 : keyCount (m.remove_value k).value_lifetimes k ≤ 1 :=
    Nat.le_trans (keyCount_remove_value_le m k k) (hu k)
  refine ⟨get_value_remove_value_self (hu k),
    get_value_set_value_self v' t' h1, keyCount_set_value_self v' t' h1, ?_⟩
  rw [set_value_lifetimes]
  exact btLookup_entryInsert _ _ _ _

/-- Witness for C9 at the concrete scenario store, removing key 1. -/
theorem C9_removal_witness :
    Reachable mEx ∧
      ((mEx.remove_value 1).get_value 1 = none ∧
        ((mEx.remove_value 1).set_value 1 8 2600).get_value 1 = some 8 ∧
        keyCount ((mEx.remove_value 1).set_value 1 8 2600).value_lifetimes 1 = 1 ∧
        ∃ b, btLookup ((mEx.remove_value 1).set_value 1 8 2600).value_lifetimes
          (2600 / mEx.gc_slot_duration_ms.get) = some b ∧
          bucketContains b 1 = true) := by
  have hr : Reachable mEx :=
    Reachable.set_value 1 2 1200
      (Reachable.set_value 0 1 500 (Reachable.new d3000 d1000))
  exact ⟨hr, C9_removal mEx 1 8 2600 hr⟩

/-- C10: gc is idempotent at a fixed timestamp: a second gc(t) right after a
first leaves the store unchanged, because the first call leaves no bucket
below the cutoff at the head of the ordered collection. -/
theorem C10_gc_idempotent {K V : Type} [DecidableEq K] (m : GcMap K V)
    (t : ℕ) : (m.gc t).gc t = m.gc t := by
  apply gc_eq_self_of_takeWhile_nil
  show (((m.gc t).value_lifetimes).map Prod.fst).takeWhile
      (fun s => decide (s < wrapSub (t / m.gc_slot_duration_ms.get)
        (m.value_ttl_ms.get / m.gc_slot_duration_ms.get))) = []
  rw [gc_value_lifetimes_foldl]
  apply takeWhile_filter_out_eq_nil
  · intro x hx
    exact hx
  · intro x hx
    exact mem_takeWhile_lt hx


end Movement
